import Mathlib

/-!
Verification of the confluence-space-exporter tool against its specification.

The Python source (src/confluence-exporter.py) is shallowly embedded below:
pure text transformations work on `List Char`, the page records become a
`Page` structure, the mutable `page_paths` dictionary becomes a function
`String → Option (List String)` threaded through an explicit fuelled
recursion, and the external HTTP / datetime / markdownify collaborators are
abstracted as parameters, exactly as the specification scopes them out.
-/

namespace ConfluenceExporter

/-! ## Name sanitizer (source: sanitize_filename, lines 41-54) -/

/-- The reserved character set of the source: invalid_chars = '<>:"/\|?*'. -/
def isReserved (c : Char) : Bool :=
  c == '<' || c == '>' || c == ':' || c == '"' || c == '/' ||
  c == '\\' || c == '|' || c == '?' || c == '*'

/-- Characters matched by Python's regex class \s (Unicode whitespace). -/
def isPySpace (c : Char) : Bool :=
  c == ' ' || c == '\t' || c == '\n' || c == '\r' || c == '\x0b' ||
  c == '\x0c' || c == '\x1c' || c == '\x1d' || c == '\x1e' || c == '\x1f' ||
  c == '\x85' || c == '\xa0' || c == '\u1680' || c == '\u2000' ||
  c == '\u2001' || c == '\u2002' || c == '\u2003' || c == '\u2004' ||
  c == '\u2005' || c == '\u2006' || c == '\u2007' || c == '\u2008' ||
  c == '\u2009' || c == '\u200a' || c == '\u2028' || c == '\u2029' ||
  c == '\u202f' || c == '\u205f' || c == '\u3000'

/-- A character matched by the regex class [\s_] of re.sub(r'[\s_]+', '_', name). -/
def isSpaceOrUnderscore (c : Char) : Bool :=
  isPySpace c || c == '_'

/-- Step one of sanitize_filename: name.replace(char, '_') for every reserved char. -/
def replaceReserved (c : Char) : Char :=
  if isReserved c then '_' else c

/-- State machine realizing re.sub(r'[\s_]+', '_', name): the flag records
whether we are inside a run of [\s_] characters (already replaced by '_'). -/
def collapseAux : Bool → List Char → List Char
  | _, [] => []
  | inRun, c :: rest =>
    if isSpaceOrUnderscore c then
      if inRun then collapseAux true rest
      else '_' :: collapseAux true rest
    else c :: collapseAux false rest

/-- re.sub(r'[\s_]+', '_', name): collapse every run of whitespace/underscores. -/
def collapseRuns (l : List Char) : List Char :=
  collapseAux false l

/-- A character stripped by name.strip('_ '). -/
def isStripChar (c : Char) : Bool :=
  c == '_' || c == ' '

/-- name.strip('_ '): drop leading and trailing underscores and spaces. -/
def stripUnderscores (l : List Char) : List Char :=
  ((l.dropWhile isStripChar).reverse.dropWhile isStripChar).reverse

/-- sanitize_filename (lines 41-54): replace reserved characters by '_',
collapse [\s_]+ runs to one '_', strip leading/trailing '_' and ' ',
truncate to 100 characters. -/
def sanitize_filename (s : List Char) : List Char :=
  (stripUnderscores (collapseRuns (s.map replaceReserved))).take 100

/-- String-level wrapper of sanitize_filename, used for path segments. -/
def sanitizeStr (s : String) : String :=
  String.mk (sanitize_filename s.data)

/-- Adjacent output characters of the collapse pass are never both in [\s_]. -/
def NoAdjacentSU (l : List Char) : Prop :=
  l.Chain' (fun a b => isSpaceOrUnderscore a = true → isSpaceOrUnderscore b = false)

/-! ## Page data model (section 3 of the spec; fields used by the code) -/

/-- A Confluence page record as consumed by the exporter: its id, title,
ancestor chain (ids, ordered root first), label names
(metadata.labels.results) and version.when timestamp ("" when absent). -/
structure Page where
  id : String
  title : String
  ancestors : List String
  labels : List String
  version_when : String
  deriving DecidableEq, Repr

/-! ## Date filter (fetch_all_pages, lines 101-120)

The datetime library is an external collaborator, so ISO-8601 parsing is
abstracted as a parameter mapping the version.when text to an instant
(`none` models a ValueError from datetime.fromisoformat). -/

/-- One iteration of the filtering loop of fetch_all_pages: a page is kept
when version.when is missing (''), unparsable, or on/after since. -/
def keep_page (parseWhen : String → Option Int) (since : Int) (p : Page) : Bool :=
  if p.version_when = "" then true
  else
    match parseWhen p.version_when with
    | some t => decide (since ≤ t)
    | none => true

/-- The date-filter pass of fetch_all_pages when since_date is set. -/
def filter_since (parseWhen : String → Option Int) (since : Int)
    (pages : List Page) : List Page :=
  pages.filter (keep_page parseWhen since)

/-! ## Hierarchy builder (build_hierarchy, lines 125-149) -/

/-- The result dictionary of build_hierarchy: the roots list and the
children_map dict (defaulting to [] for absent keys). -/
structure Hierarchy where
  roots : List Page
  children_map : String → List Page

/-- One iteration of the loop of build_hierarchy: a page with no ancestors,
or whose immediate parent (last ancestor) is outside the export set, is
appended to roots; otherwise it is appended to children_map[parent_id]. -/
def hbStep (export_page_ids : List String) (acc : Hierarchy) (page : Page) : Hierarchy :=
  match page.ancestors.getLast? with
  | none => { acc with roots := acc.roots ++ [page] }
  | some parent_id =>
    if parent_id ∈ export_page_ids then
      { acc with children_map := fun pid =>
          if pid = parent_id then acc.children_map pid ++ [page] else acc.children_map pid }
    else
      { acc with roots := acc.roots ++ [page] }

/-- build_hierarchy: fold the loop body over the pages, starting from the
empty roots list and the empty children_map dict. -/
def build_hierarchy (pages : List Page) : Hierarchy :=
  pages.foldl (hbStep (pages.map Page.id)) ⟨[], fun _ => []⟩

/-- The root test of build_hierarchy: no ancestors, or the last ancestor id
is not in the export set. -/
def isRootPage (ids : List String) (p : Page) : Bool :=
  match p.ancestors.getLast? with
  | none => true
  | some parent_id => decide (parent_id ∉ ids)

/-- The attachment test of build_hierarchy: page p ends up in
children_map[parent_id]. -/
def isChildOf (ids : List String) (parent_id : String) (p : Page) : Bool :=
  p.ancestors.getLast? == some parent_id && decide (parent_id ∈ ids)

/-! ## Attachment download (download_attachments, lines 168-215)

The HTTP transfer and file write are external; which attachments download
successfully is abstracted as the predicate ok. -/

/-- An attachment record: its title (filename) and raw download reference. -/
structure Attachment where
  title : String
  download : String
  deriving DecidableEq, Repr

/-- The relative local path recorded for a downloaded attachment:
attachments/<sanitized filename>. -/
def attachment_local_path (att : Attachment) : String :=
  "attachments/" ++ sanitizeStr att.title

/-- Python dict assignment url_mapping[k] = v on the function view of the dict. -/
def dictSet (m : String → Option String) (k v : String) : String → Option String :=
  fun q => if q = k then some v else m q

/-- One loop iteration of download_attachments: when the byte transfer and
write succeed (ok), record the plain filename and the raw download
reference, both mapped to the local path; a failed download is caught,
logged and skipped, leaving url_mapping unchanged. -/
def download_step (ok : Attachment → Bool) (m : String → Option String)
    (att : Attachment) : String → Option String :=
  if ok att then
    dictSet (dictSet m att.title (attachment_local_path att)) att.download
      (attachment_local_path att)
  else m

/-- The url_mapping built by download_attachments over a page's attachment
list, starting from the empty dict. -/
def download_attachments_mapping (ok : Attachment → Bool)
    (atts : List Attachment) : String → Option String :=
  atts.foldl (download_step ok) (fun _ => none)

/-! ## Link substitution (convert_to_markdown, lines 228-235) -/

/-- Python str.replace for a pattern, fuelled by the input length: scan
left to right, replacing each leftmost non-overlapping occurrence. -/
def replaceAuxF (pat rep : List Char) : Nat → List Char → List Char
  | _, [] => []
  | 0, s => s
  | fuel+1, c :: rest =>
    if pat ≠ [] ∧ pat.isPrefixOf (c :: rest) then
      rep ++ replaceAuxF pat rep fuel ((c :: rest).drop pat.length)
    else c :: replaceAuxF pat rep fuel rest

/-- Python str.replace(pat, rep): every step of the scan consumes at least
one character, so the input length is enough fuel. For the empty pattern
Python interleaves the replacement around every character. -/
def pyReplace (pat rep s : List Char) : List Char :=
  if pat = [] then rep ++ s.flatMap (fun c => c :: rep)
  else replaceAuxF pat rep s.length s

/-- The URL-substitution loop of convert_to_markdown: fold str.replace over
the url_mapping items in insertion order. -/
def substitute_links (url_mapping : List (List Char × List Char))
    (md_content : List Char) : List Char :=
  url_mapping.foldl (fun acc kv => pyReplace kv.1 kv.2 acc) md_content

/-! ## Page export (export_page, lines 255-290)

The HTML-to-Markdown conversion is the external markdownify engine, so the
converted body text enters as a parameter. -/

/-- The index.md text written by export_page: the converted body prefixed
by the "# title" heading, then, when the page has labels, the front-matter
block listing the comma-joined label names. -/
def export_page_content (page_title : List Char) (label_names : List (List Char))
    (md_content : List Char) : List Char :=
  let withTitle := "# ".data ++ page_title ++ "\n\n".data ++ md_content
  if label_names ≠ [] then
    "---\nlabels: ".data ++ List.intercalate ", ".data label_names ++
      "\n---\n\n".data ++ withTitle
  else withTitle

/-! ## Path assignment (determine_page_paths, lines 151-166) -/

/-- The page_paths dict: page id -> assigned directory path, kept as the
list of path segments below the filesystem root. -/
abbrev PathMap := String → Option (List String)

/-- The recursion of determine_page_paths: process_page stores
parent_path / sanitize_filename(title) for the page and recurses into
children_map[page id]; the loops over roots and over children become the
list argument. The fuel only bounds the recursion depth (the Python
recursion would never return on cyclic children_map data, which none
models); every recursive call consumes one unit. -/
def process_pages (children_map : String → List Page) :
    Nat → List Page → List String → PathMap → Option PathMap
  | _, [], _, page_paths => some page_paths
  | 0, _ :: _, _, _ => none
  | fuel+1, page :: rest, parent_path, page_paths =>
    let page_path := parent_path ++ [sanitizeStr page.title]
    let paths1 : PathMap := fun k => if k = page.id then some page_path else page_paths k
    match process_pages children_map fuel (children_map page.id) page_path paths1 with
    | none => none
    | some paths2 => process_pages children_map fuel rest parent_path paths2

/-- determine_page_paths: process every root page against the output
directory, starting from the empty page_paths dict. -/
def determine_page_paths (hierarchy : Hierarchy) (output_dir : List String)
    (fuel : Nat) : Option PathMap :=
  process_pages hierarchy.children_map fuel hierarchy.roots output_dir (fun _ => none)

/-- The pages visited by process_pages in visit order, with multiplicity
(auxiliary: exactly the keys the traversal writes). -/
def visited_pages (children_map : String → List Page) :
    Nat → List Page → List Page
  | _, [] => []
  | 0, _ :: _ => []
  | fuel+1, page :: rest =>
    page :: (visited_pages children_map fuel (children_map page.id) ++
      visited_pages children_map fuel rest)

/-- Reachability along children_map edges (auxiliary). -/
inductive Reach (children_map : String → List Page) : Page → Page → Prop
  | refl (p : Page) : Reach children_map p p
  | step {p q r : Page} : Reach children_map p q → r ∈ children_map q.id →
      Reach children_map p r

/-- The invariant claimed by C2 (auxiliary): every assigned path is the
parent's assigned path -- or the output root for hierarchy roots --
extended by the single sanitized-title segment. -/
def GoodPaths (pages : List Page) (output_dir : List String) (m : PathMap) : Prop :=
  ∀ p ∈ pages, ∀ q, m p.id = some q →
    (isRootPage (pages.map Page.id) p = true →
      q = output_dir ++ [sanitizeStr p.title]) ∧
    (∀ a, p.ancestors.getLast? = some a → a ∈ pages.map Page.id →
      ∃ pa, m a = some pa ∧ q = pa ++ [sanitizeStr p.title])

/-! ### Lemmas about the sanitizer -/

theorem mem_collapseAux {c : Char} :
    ∀ (b : Bool) (l : List Char), c ∈ collapseAux b l → c = '_' ∨ c ∈ l := by
  intro b l
  induction l generalizing b with
  | nil => intro h; simp [collapseAux] at h
  | cons d rest ih =>
    intro h
    by_cases hd : isSpaceOrUnderscore d
    · cases b with
      | true =>
        simp only [collapseAux, hd, if_true] at h
        rcases ih true h with h' | h'
        · exact Or.inl h'
        · exact Or.inr (List.mem_cons_of_mem _ h')
      | false =>
        simp [collapseAux, hd] at h
        rcases h with h' | h'
        · exact Or.inl h'
        · rcases ih true h' with h'' | h''
          · exact Or.inl h''
          · exact Or.inr (List.mem_cons_of_mem _ h'')
    · simp [collapseAux, hd] at h
      rcases h with h' | h'
      · exact Or.inr (h' ▸ List.mem_cons_self _ _)
      · rcases ih false h' with h'' | h''
        · exact Or.inl h''
        · exact Or.inr (List.mem_cons_of_mem _ h'')

theorem mem_collapseAux_of_not_su {c : Char} (hc : isSpaceOrUnderscore c = false) :
    ∀ (b : Bool) (l : List Char), c ∈ l → c ∈ collapseAux b l := by
  intro b l
  induction l generalizing b with
  | nil => intro h; simp at h
  | cons d rest ih =>
    intro h
    rcases List.mem_cons.mp h with rfl | h'
    · simp [collapseAux, hc]
    · by_cases hd : isSpaceOrUnderscore d
      · cases b with
        | true =>
          simp only [collapseAux, hd, if_true]
          exact ih true h'
        | false =>
          simp [collapseAux, hd]
          exact Or.inr (ih true h')
      · simp [collapseAux, hd]
        exact Or.inr (ih false h')

theorem mem_stripUnderscores {c : Char} {l : List Char} :
    c ∈ stripUnderscores l → c ∈ l := by
  intro h
  unfold stripUnderscores at h
  have h1 : c ∈ (l.dropWhile isStripChar).reverse.dropWhile isStripChar := by
    simpa using h
  have h2 := (List.dropWhile_sublist isStripChar).mem h1
  have h3 : c ∈ l.dropWhile isStripChar := by simpa using h2
  exact (List.dropWhile_sublist isStripChar).mem h3

theorem mem_stripUnderscores_of_not_strip {c : Char} (hc : isStripChar c = false)
    {l : List Char} (h : c ∈ l) : c ∈ stripUnderscores l := by
  unfold stripUnderscores
  have key : ∀ (m : List Char), c ∈ m → c ∈ m.dropWhile isStripChar := by
    intro m
    induction m with
    | nil => intro h; simp at h
    | cons d rest ih =>
      intro hm
      rcases List.mem_cons.mp hm with rfl | h'
      · rw [List.dropWhile_cons]
        simp [hc]
      · rw [List.dropWhile_cons]
        by_cases hd : isStripChar d
        · simp only [hd, if_true]
          exact ih h'
        · simp only [hd, if_false]
          exact List.mem_cons_of_mem _ h'
  have h1 := key l h
  have h2 : c ∈ (l.dropWhile isStripChar).reverse := by simpa using h1
  simpa using key _ h2

theorem collapseAux_su_eq_underscore {c : Char} :
    ∀ (b : Bool) (l : List Char), c ∈ collapseAux b l →
      isSpaceOrUnderscore c = true → c = '_' := by
  intro b l
  induction l generalizing b with
  | nil => intro h; simp [collapseAux] at h
  | cons d rest ih =>
    intro h hsu
    by_cases hd : isSpaceOrUnderscore d
    · cases b with
      | true =>
        simp only [collapseAux, hd, if_true] at h
        exact ih true h hsu
      | false =>
        simp [collapseAux, hd] at h
        rcases h with h' | h'
        · exact h'
        · exact ih true h' hsu
    · simp [collapseAux, hd] at h
      rcases h with h' | h'
      · subst h'; exact absurd hsu hd
      · exact ih false h' hsu

theorem head_collapseAux_true {d : Char} :
    ∀ (l : List Char), (collapseAux true l).head? = some d →
      isSpaceOrUnderscore d = false := by
  intro l
  induction l with
  | nil => intro h; simp [collapseAux] at h
  | cons e rest ih =>
    intro h
    by_cases he : isSpaceOrUnderscore e
    · simp only [collapseAux, he, if_true] at h
      exact ih h
    · simp [collapseAux, he] at h
      rw [← h]; simpa using he

theorem chain'_collapseAux : ∀ (b : Bool) (l : List Char), NoAdjacentSU (collapseAux b l) := by
  intro b l
  induction l generalizing b with
  | nil => simp [collapseAux, NoAdjacentSU]
  | cons d rest ih =>
    by_cases hd : isSpaceOrUnderscore d
    · cases b with
      | true => simpa only [collapseAux, hd, if_true] using ih true
      | false =>
        simp only [collapseAux, hd, if_true, Bool.false_eq_true, if_false]
        refine List.chain'_cons'.mpr ⟨?_, ih true⟩
        intro y hy _
        exact head_collapseAux_true rest hy
    · simp only [collapseAux, hd, Bool.false_eq_true, if_false]
      refine List.chain'_cons'.mpr ⟨?_, ih false⟩
      intro y hy habs
      exact absurd habs hd

theorem collapseAux_eq_self :
    ∀ (b : Bool) (l : List Char),
      (∀ c ∈ l, isSpaceOrUnderscore c = true → c = '_') →
      NoAdjacentSU l →
      (b = true → ∀ d, l.head? = some d → isSpaceOrUnderscore d = false) →
      collapseAux b l = l := by
  intro b l
  induction l generalizing b with
  | nil => intro _ _ _; simp [collapseAux]
  | cons d rest ih =>
    intro hsu hch hflag
    have hchTail : NoAdjacentSU rest := (List.chain'_cons'.mp hch).2
    have hsuTail : ∀ c ∈ rest, isSpaceOrUnderscore c = true → c = '_' :=
      fun c hc => hsu c (List.mem_cons_of_mem d hc)
    by_cases hd : isSpaceOrUnderscore d
    · cases b with
      | true =>
        have := hflag rfl d rfl
        rw [hd] at this; cases this
      | false =>
        have hdu : d = '_' := hsu d (List.mem_cons_self d rest) hd
        simp only [collapseAux, hd, if_true, Bool.false_eq_true, if_false]
        rw [hdu]
        congr 1
        refine ih true hsuTail hchTail ?_
        intro _ e he
        have := (List.chain'_cons'.mp hch).1 e
        rw [he] at this
        exact this rfl hd
    · simp only [collapseAux, hd, Bool.false_eq_true, if_false]
      congr 1
      refine ih false hsuTail hchTail ?_
      intro habs; cases habs

theorem stripUnderscores_infix (l : List Char) : stripUnderscores l <:+: l := by
  unfold stripUnderscores
  have h1 : l.dropWhile isStripChar <:+ l := List.dropWhile_suffix isStripChar
  have h2 : (l.dropWhile isStripChar).reverse.dropWhile isStripChar <:+
      (l.dropWhile isStripChar).reverse := List.dropWhile_suffix isStripChar
  have h3 : ((l.dropWhile isStripChar).reverse.dropWhile isStripChar).reverse <+:
      l.dropWhile isStripChar := by
    rw [← List.reverse_suffix]
    simpa using h2
  exact h3.isInfix.trans h1.isInfix

theorem head_stripUnderscores {d : Char} {l : List Char}
    (h : (stripUnderscores l).head? = some d) : isStripChar d = false := by
  unfold stripUnderscores at h
  have hpre : ((l.dropWhile isStripChar).reverse.dropWhile isStripChar).reverse <+:
      l.dropWhile isStripChar := by
    rw [← List.reverse_suffix]
    simpa using List.dropWhile_suffix (l := (l.dropWhile isStripChar).reverse) isStripChar
  obtain ⟨t, ht⟩ := hpre
  have hhead : (l.dropWhile isStripChar).head? = some d := by
    rw [← ht]
    rcases hh : ((l.dropWhile isStripChar).reverse.dropWhile isStripChar).reverse with _ | ⟨e, m⟩
    · rw [hh] at h; simp at h
    · rw [hh] at h; simp at h
      simp [h]
  have := List.head?_dropWhile_not isStripChar l
  rw [hhead] at this
  simpa using this

theorem getLast_stripUnderscores {d : Char} {l : List Char}
    (h : (stripUnderscores l).getLast? = some d) : isStripChar d = false := by
  unfold stripUnderscores at h
  rw [List.getLast?_reverse] at h
  have := List.head?_dropWhile_not isStripChar (l.dropWhile isStripChar).reverse
  rw [h] at this
  simpa using this

theorem replaceReserved_not_reserved (c : Char) : isReserved (replaceReserved c) = false := by
  by_cases h : isReserved c
  · simp only [replaceReserved, h, if_true]
    decide
  · simp [replaceReserved, h]

theorem sanitize_mem_shape {c : Char} {s : List Char} (h : c ∈ sanitize_filename s) :
    c = '_' ∨ c ∈ s.map replaceReserved := by
  unfold sanitize_filename at h
  have h1 : c ∈ stripUnderscores (collapseRuns (s.map replaceReserved)) :=
    ( List.take_prefix 100 _).sublist.mem h
  have h2 : c ∈ collapseRuns (s.map replaceReserved) := mem_stripUnderscores h1
  exact mem_collapseAux false _ h2

theorem collapseAux_all_su :
    ∀ (l : List Char), (∀ c ∈ l, isSpaceOrUnderscore c = true) →
      collapseAux true l = [] ∧ ∀ (b : Bool), b = false → l ≠ [] →
        collapseAux false l = ['_'] := by
  intro l
  induction l with
  | nil =>
    intro _
    exact ⟨rfl, fun b _ h => absurd rfl h⟩
  | cons d rest ih =>
    intro hall
    have hd : isSpaceOrUnderscore d = true := hall d (List.mem_cons_self d rest)
    have ihr := ih (fun c hc => hall c (List.mem_cons_of_mem d hc))
    constructor
    · simp only [collapseAux, hd, if_true]
      exact ihr.1
    · intro b _ _
      simp only [collapseAux, hd, if_true, Bool.false_eq_true, if_false]
      rw [ihr.1]

theorem take_head? {l : List Char} {d : Char} (h : (l.take 100).head? = some d) :
    l.head? = some d := by
  cases l with
  | nil => simp at h
  | cons a t => simpa using h

/-! ## Claim C8: sanitizer output bounds -/

/-- C8. For every input string, sanitize_filename returns at most 100
characters and none of them is a reserved character. -/
theorem sanitize_filename_bounds (s : List Char) :
    (sanitize_filename s).length ≤ 100 ∧
      ∀ c ∈ sanitize_filename s, isReserved c = false := by
  constructor
  · unfold sanitize_filename
    rw [List.length_take]
    exact min_le_left _ _
  · intro c hc
    rcases sanitize_mem_shape hc with rfl | hm
    · decide
    · obtain ⟨d, _, rfl⟩ := List.mem_map.mp hm
      exact replaceReserved_not_reserved d

/-! ## Claim C3: when the sanitizer output is empty -/

/-- C3 (amended): sanitize_filename returns the empty string exactly when
every character of the input is reserved, whitespace, or an underscore;
in particular the empty input and inputs of only reserved characters give
the empty string, and any input with a character outside that set does not. -/
theorem sanitize_filename_empty_iff (s : List Char) :
    sanitize_filename s = [] ↔
      ∀ c ∈ s, isReserved c = true ∨ isSpaceOrUnderscore c = true := by
  constructor
  · intro h c hcs
    by_contra hbad
    push_neg at hbad
    obtain ⟨hres, hsu⟩ := hbad
    have hres' : isReserved c = false := by simpa using hres
    have hsu' : isSpaceOrUnderscore c = false := by simpa using hsu
    have h1 : replaceReserved c = c := by simp [replaceReserved, hres']
    have h2 : c ∈ s.map replaceReserved := by
      rw [← h1]; exact List.mem_map_of_mem replaceReserved hcs
    have h3 : c ∈ collapseRuns (s.map replaceReserved) :=
      mem_collapseAux_of_not_su hsu' false _ h2
    have hstrip : isStripChar c = false := by
      rcases hsc : isStripChar c with _ | _
      · rfl
      · exfalso
        have : c = '_' ∨ c = ' ' := by
          have := hsc
          unfold isStripChar at this
          rcases Bool.or_eq_true_iff.mp this with h' | h'
          · exact Or.inl (by simpa using h')
          · exact Or.inr (by simpa using h')
        rcases this with rfl | rfl
        · simp [isSpaceOrUnderscore] at hsu'
        · simp [isSpaceOrUnderscore, isPySpace] at hsu'
    have h4 : c ∈ stripUnderscores (collapseRuns (s.map replaceReserved)) :=
      mem_stripUnderscores_of_not_strip hstrip h3
    have h5 : stripUnderscores (collapseRuns (s.map replaceReserved)) ≠ [] :=
      fun hnil => by rw [hnil] at h4; simp at h4
    unfold sanitize_filename at h
    rcases List.take_eq_nil_iff.mp h with h' | h'
    · cases h'
    · exact h5 h'
  · intro hall
    have hsu : ∀ c ∈ s.map replaceReserved, isSpaceOrUnderscore c = true := by
      intro c hc
      obtain ⟨d, hd, rfl⟩ := List.mem_map.mp hc
      rcases hall d hd with h' | h'
      · simp [replaceReserved, h', isSpaceOrUnderscore]
      · have : ¬ isReserved d = true → replaceReserved d = d := by
          intro hn; simp [replaceReserved, by simpa using hn]
        by_cases hr : isReserved d = true
        · simp [replaceReserved, hr, isSpaceOrUnderscore]
        · rw [this hr]; exact h'
    rcases hs : s.map replaceReserved with _ | ⟨d, rest⟩
    · have : s = [] := by
        cases s with
        | nil => rfl
        | cons a t => simp at hs
      subst this
      rfl
    · have := (collapseAux_all_su (s.map replaceReserved) hsu).2 false rfl (by rw [hs]; simp)
      unfold sanitize_filename collapseRuns
      rw [this]
      decide

theorem sanitize_mem_su {c : Char} {s : List Char} (h : c ∈ sanitize_filename s)
    (hsu : isSpaceOrUnderscore c = true) : c = '_' := by
  unfold sanitize_filename at h
  have h1 : c ∈ stripUnderscores (collapseRuns (s.map replaceReserved)) :=
    ( List.take_prefix 100 _).sublist.mem h
  exact collapseAux_su_eq_underscore false _ (mem_stripUnderscores h1) hsu

theorem sanitize_chain' (s : List Char) : NoAdjacentSU (sanitize_filename s) := by
  unfold sanitize_filename
  have h1 := chain'_collapseAux false (s.map replaceReserved)
  have h2 : NoAdjacentSU (stripUnderscores (collapseRuns (s.map replaceReserved))) :=
    h1.infix ( stripUnderscores_infix _)
  exact h2.prefix ( List.take_prefix 100 _)

theorem sanitize_head_not_strip {d : Char} {s : List Char}
    (h : (sanitize_filename s).head? = some d) : isStripChar d = false := by
  unfold sanitize_filename at h
  exact head_stripUnderscores (take_head? h)

theorem sanitize_length_le (s : List Char) : (sanitize_filename s).length ≤ 100 := by
  unfold sanitize_filename
  rw [List.length_take]
  exact min_le_left _ _

theorem map_replaceReserved_eq_self {l : List Char}
    (h : ∀ c ∈ l, isReserved c = false) : l.map replaceReserved = l := by
  induction l with
  | nil => rfl
  | cons a t ih =>
    simp only [List.map_cons]
    rw [show replaceReserved a = a from by
          simp [replaceReserved, h a (List.mem_cons_self a t)],
        ih (fun c hc => h c (List.mem_cons_of_mem a hc))]

theorem sanitize_not_reserved {c : Char} {s : List Char} (h : c ∈ sanitize_filename s) :
    isReserved c = false := by
  rcases sanitize_mem_shape h with rfl | hm
  · decide
  · obtain ⟨d, _, rfl⟩ := List.mem_map.mp hm
    exact replaceReserved_not_reserved d

/-! ## Claim C10: idempotence of the sanitizer -/

/-- C10 (amended): sanitize_filename is idempotent on every input whose
sanitized form does not end in an underscore (truncation to 100 characters
can expose a trailing underscore, which a second application strips). -/
theorem sanitize_idempotent (s : List Char)
    (h : (sanitize_filename s).getLast? ≠ some '_') :
    sanitize_filename (sanitize_filename s) = sanitize_filename s := by
  set t := sanitize_filename s with ht
  have hmap : t.map replaceReserved = t :=
    map_replaceReserved_eq_self (fun c hc => sanitize_not_reserved hc)
  have hcol : collapseRuns t = t := by
    unfold collapseRuns
    refine collapseAux_eq_self false t (fun c hc => sanitize_mem_su hc) (sanitize_chain' s) ?_
    intro habs; cases habs
  have hdrop : t.dropWhile isStripChar = t := by
    cases hc : t with
    | nil => rfl
    | cons d r =>
      rw [List.dropWhile_cons]
      have : isStripChar d = false := @sanitize_head_not_strip d s (by rw [← ht, hc]; rfl)
      simp [this]
  have hlast : ∀ d, t.getLast? = some d → isStripChar d = false := by
    intro d hd
    have hmem : d ∈ t := List.mem_of_mem_getLast? hd
    rcases hsc : isStripChar d with _ | _
    · rfl
    · exfalso
      have hdu : d = '_' ∨ d = ' ' := by
        unfold isStripChar at hsc
        rcases Bool.or_eq_true_iff.mp hsc with h' | h'
        · exact Or.inl (by simpa using h')
        · exact Or.inr (by simpa using h')
      rcases hdu with rfl | rfl
      · exact h hd
      · have : (' ' : Char) = '_' := sanitize_mem_su hmem (by decide)
        cases this
  have hdropRev : t.reverse.dropWhile isStripChar = t.reverse := by
    cases hc : t.reverse with
    | nil => rfl
    | cons d r =>
      rw [List.dropWhile_cons]
      have hhead : t.reverse.head? = some d := by rw [hc]; rfl
      rw [List.head?_reverse] at hhead
      simp [hlast d hhead]
  have hstrip : stripUnderscores t = t := by
    unfold stripUnderscores
    rw [hdrop, hdropRev, List.reverse_reverse]
  have htake : t.take 100 = t := List.take_of_length_le (by rw [ht]; exact sanitize_length_le s)
  show (stripUnderscores (collapseRuns (t.map replaceReserved))).take 100 = t
  rw [hmap, hcol, hstrip, htake]

/-- Witness for C10 (amended) at the concrete input "a b". -/
theorem sanitize_idempotent_witness :
    (sanitize_filename ['a', ' ', 'b']).getLast? ≠ some '_' ∧
      sanitize_filename (sanitize_filename ['a', ' ', 'b']) =
        sanitize_filename ['a', ' ', 'b'] :=
  ⟨by decide, sanitize_idempotent ['a', ' ', 'b'] (by decide)⟩

/-- Counterexample to C10 as stated: on the 101-character alternating string
a_a_..._a, sanitize_filename truncates to 100 characters ending in '_', and a
second application strips that trailing underscore, so the two differ. -/
theorem sanitize_idempotent_counterexample :
    sanitize_filename (sanitize_filename
        ((List.range 101).map (fun i => if i % 2 = 0 then 'a' else '_'))) ≠
      sanitize_filename
        ((List.range 101).map (fun i => if i % 2 = 0 then 'a' else '_')) := by
  decide

/-- Counterexample to C3 as stated: the input " " is non-empty and its only
character is not in the reserved set, yet sanitize_filename returns "". -/
theorem sanitize_filename_empty_counterexample :
    ([' '] : List Char) ≠ [] ∧ isReserved ' ' = false ∧ sanitize_filename [' '] = [] :=
  ⟨by decide, by decide, by decide⟩

/-! ### The hierarchy builder characterized by filters -/

theorem hbStep_roots (ids : List String) (acc : Hierarchy) (page : Page) :
    (hbStep ids acc page).roots =
      acc.roots ++ (if isRootPage ids page then [page] else []) := by
  unfold hbStep isRootPage
  cases h : page.ancestors.getLast? with
  | none => simp
  | some parent_id =>
    by_cases hmem : parent_id ∈ ids
    · simp [hmem]
    · simp [hmem]

theorem hbStep_cm (ids : List String) (acc : Hierarchy) (page : Page) (pid : String) :
    (hbStep ids acc page).children_map pid =
      acc.children_map pid ++ (if isChildOf ids pid page then [page] else []) := by
  cases h : page.ancestors.getLast? with
  | none =>
    have hfalse : isChildOf ids pid page = false := by
      unfold isChildOf
      rw [h]
      rfl
    simp [hbStep, h, hfalse]
  | some parent_id =>
    by_cases hpid : pid = parent_id
    · subst hpid
      by_cases hmem : pid ∈ ids
      · have htrue : isChildOf ids pid page = true := by
          unfold isChildOf
          rw [h]
          simp [hmem]
        simp [hbStep, h, hmem, htrue]
      · have hfalse : isChildOf ids pid page = false := by
          unfold isChildOf
          rw [h]
          simp [hmem]
        simp [hbStep, h, hmem, hfalse]
    · have hfalse : isChildOf ids pid page = false := by
        unfold isChildOf
        rw [h]
        have h1 : ((some parent_id : Option String) == some pid) = false := by
          rw [beq_eq_false_iff_ne]
          intro e
          injection e with e'
          exact hpid e'.symm
        rw [h1, Bool.false_and]
      by_cases hmem : parent_id ∈ ids
      · simp [hbStep, h, hmem, hfalse, hpid, Ne.symm hpid]
      · simp [hbStep, h, hmem, hfalse]

theorem hb_foldl_roots (ids : List String) :
    ∀ (pages : List Page) (acc : Hierarchy),
      (pages.foldl (hbStep ids) acc).roots =
        acc.roots ++ pages.filter (isRootPage ids) := by
  intro pages
  induction pages with
  | nil => intro acc; simp
  | cons page rest ih =>
    intro acc
    rw [List.foldl_cons, ih, hbStep_roots, List.filter_cons]
    by_cases h : isRootPage ids page
    · simp [h]
    · simp [h]

theorem hb_foldl_cm (ids : List String) (pid : String) :
    ∀ (pages : List Page) (acc : Hierarchy),
      (pages.foldl (hbStep ids) acc).children_map pid =
        acc.children_map pid ++ pages.filter (isChildOf ids pid) := by
  intro pages
  induction pages with
  | nil => intro acc; simp
  | cons page rest ih =>
    intro acc
    rw [List.foldl_cons, ih, hbStep_cm, List.filter_cons]
    by_cases h : isChildOf ids pid page
    · simp [h]
    · simp [h]

theorem build_hierarchy_roots (pages : List Page) :
    (build_hierarchy pages).roots = pages.filter (isRootPage (pages.map Page.id)) := by
  unfold build_hierarchy
  rw [hb_foldl_roots]
  rfl

theorem build_hierarchy_cm (pages : List Page) (pid : String) :
    (build_hierarchy pages).children_map pid =
      pages.filter (isChildOf (pages.map Page.id) pid) := by
  unfold build_hierarchy
  rw [hb_foldl_cm]
  rfl

theorem count_filter_eq_zero {q : Page → Bool} {p : Page} {l : List Page}
    (h : q p = false) : (l.filter q).count p = 0 := by
  rw [List.count_eq_zero]
  intro hmem
  rw [List.mem_filter] at hmem
  rw [hmem.2] at h
  cases h

/-! ## Claim C1: every page lands in exactly one place -/

/-- C1. A page of the export set with no ancestors, or whose immediate
parent id is outside the export set, is placed exactly once in roots and
in no children_map list; otherwise it is placed exactly once, in the
children_map list of its last ancestor, and nowhere else. -/
theorem build_hierarchy_unique_place (pages : List Page) (p : Page)
    (hcount : pages.count p = 1) :
    (match p.ancestors.getLast? with
     | none =>
         (build_hierarchy pages).roots.count p = 1 ∧
           ∀ pid, ((build_hierarchy pages).children_map pid).count p = 0
     | some a =>
         if a ∈ pages.map Page.id then
           ((build_hierarchy pages).children_map a).count p = 1 ∧
             (build_hierarchy pages).roots.count p = 0 ∧
             ∀ pid, pid ≠ a → ((build_hierarchy pages).children_map pid).count p = 0
         else
           (build_hierarchy pages).roots.count p = 1 ∧
             ∀ pid, ((build_hierarchy pages).children_map pid).count p = 0) := by
  split
  next hga =>
    constructor
    · rw [build_hierarchy_roots]
      rw [List.count_filter (by unfold isRootPage; rw [hga])]
      exact hcount
    · intro pid
      rw [build_hierarchy_cm]
      refine count_filter_eq_zero ?_
      unfold isChildOf
      rw [hga]
      rfl
  next a hga =>
    by_cases hmem : a ∈ pages.map Page.id
    · rw [if_pos hmem]
      refine ⟨?_, ?_, ?_⟩
      · rw [build_hierarchy_cm]
        rw [List.count_filter (by unfold isChildOf; rw [hga]; simp [hmem])]
        exact hcount
      · rw [build_hierarchy_roots]
        refine count_filter_eq_zero ?_
        unfold isRootPage
        rw [hga]
        simpa using hmem
      · intro pid hpid
        rw [build_hierarchy_cm]
        refine count_filter_eq_zero ?_
        unfold isChildOf
        rw [hga]
        have h1 : ((some a : Option String) == some pid) = false := by
          rw [beq_eq_false_iff_ne]
          intro e
          injection e with e'
          exact hpid e'.symm
        rw [h1, Bool.false_and]
    · rw [if_neg hmem]
      constructor
      · rw [build_hierarchy_roots]
        rw [List.count_filter (by unfold isRootPage; rw [hga]; simpa using hmem)]
        exact hcount
      · intro pid
        rw [build_hierarchy_cm]
        refine count_filter_eq_zero ?_
        unfold isChildOf
        rw [hga]
        by_cases hpid : pid = a
        · subst hpid
          simp [hmem]
        · have h1 : ((some a : Option String) == some pid) = false := by
            rw [beq_eq_false_iff_ne]
            intro e
            injection e with e'
            exact hpid e'.symm
          rw [h1, Bool.false_and]

/-- Witness for C1 on a concrete two-page space: the child of page "1" is
counted once under children_map "1", zero times in roots, and zero times
under every other key. -/
theorem build_hierarchy_unique_place_witness :
    ([⟨"1", "Root", [], [], ""⟩, ⟨"2", "Child", ["1"], [], ""⟩] : List Page).count
        ⟨"2", "Child", ["1"], [], ""⟩ = 1 ∧
      ((build_hierarchy [⟨"1", "Root", [], [], ""⟩, ⟨"2", "Child", ["1"], [], ""⟩]).children_map
          "1").count ⟨"2", "Child", ["1"], [], ""⟩ = 1 ∧
        (build_hierarchy [⟨"1", "Root", [], [], ""⟩,
            ⟨"2", "Child", ["1"], [], ""⟩]).roots.count ⟨"2", "Child", ["1"], [], ""⟩ = 0 ∧
        ∀ pid, pid ≠ "1" →
          ((build_hierarchy [⟨"1", "Root", [], [], ""⟩,
              ⟨"2", "Child", ["1"], [], ""⟩]).children_map pid).count
            ⟨"2", "Child", ["1"], [], ""⟩ = 0 := by
  refine ⟨by decide, ?_⟩
  have h := build_hierarchy_unique_place
    [⟨"1", "Root", [], [], ""⟩, ⟨"2", "Child", ["1"], [], ""⟩]
    ⟨"2", "Child", ["1"], [], ""⟩ (by decide)
  have hin : ("1" : String) ∈
      ([⟨"1", "Root", [], [], ""⟩, ⟨"2", "Child", ["1"], [], ""⟩] : List Page).map Page.id := by
    decide
  simp only [List.getLast?_singleton, if_pos hin] at h
  exact h

/-! ## Claim C4: the date filter is fail-open -/

/-- C4. With a since date supplied, a page is in the filtered list iff it
was fetched and its version.when is missing (''), unparsable, or parses on
or after since; missing or unparsable timestamps never exclude a page. -/
theorem filter_since_mem (parseWhen : String → Option Int) (since : Int)
    (pages : List Page) (p : Page) :
    p ∈ filter_since parseWhen since pages ↔
      p ∈ pages ∧ (p.version_when = "" ∨ parseWhen p.version_when = none ∨
        ∃ t, parseWhen p.version_when = some t ∧ since ≤ t) := by
  unfold filter_since
  rw [List.mem_filter]
  constructor
  · rintro ⟨hmem, hkeep⟩
    refine ⟨hmem, ?_⟩
    unfold keep_page at hkeep
    by_cases hw : p.version_when = ""
    · exact Or.inl hw
    · rw [if_neg hw] at hkeep
      cases hp : parseWhen p.version_when with
      | none => exact Or.inr (Or.inl rfl)
      | some t =>
        rw [hp] at hkeep
        exact Or.inr (Or.inr ⟨t, rfl, of_decide_eq_true hkeep⟩)
  · rintro ⟨hmem, hcond⟩
    refine ⟨hmem, ?_⟩
    unfold keep_page
    by_cases hw : p.version_when = ""
    · rw [if_pos hw]
    · rw [if_neg hw]
      rcases hcond with hcond | hcond | ⟨t, hp, hle⟩
      · exact absurd hcond hw
      · rw [hcond]
      · rw [hp]
        exact decide_eq_true hle

/-! ### The url_mapping built by download_attachments -/

theorem download_fold_keeps (ok : Attachment → Bool) (k v : String) :
    ∀ (atts : List Attachment) (m : String → Option String), m k = some v →
      (∀ att' ∈ atts, ok att' = true → (att'.title = k ∨ att'.download = k) →
        attachment_local_path att' = v) →
      (atts.foldl (download_step ok) m) k = some v := by
  intro atts
  induction atts with
  | nil => intro m hm _; exact hm
  | cons a rest ih =>
    intro m hm hall
    rw [List.foldl_cons]
    refine ih (download_step ok m a) ?_ (fun att' h' => hall att' (List.mem_cons_of_mem a h'))
    unfold download_step dictSet
    by_cases hok : ok a = true
    · rw [if_pos hok]
      by_cases hkd : k = a.download
      · rw [if_pos hkd]
        rw [hall a (List.mem_cons_self a rest) hok (Or.inr hkd.symm)]
      · rw [if_neg hkd]
        by_cases hkt : k = a.title
        · rw [if_pos hkt]
          rw [hall a (List.mem_cons_self a rest) hok (Or.inl hkt.symm)]
        · rw [if_neg hkt]
          exact hm
    · rw [if_neg (by simpa using hok)]
      exact hm

theorem download_fold_two_entries (ok : Attachment → Bool) (att : Attachment)
    (hok : ok att = true) :
    ∀ (atts : List Attachment) (m : String → Option String), att ∈ atts →
      (∀ att' ∈ atts, ok att' = true → att' ≠ att →
        att'.title ≠ att.title ∧ att'.title ≠ att.download ∧
        att'.download ≠ att.title ∧ att'.download ≠ att.download) →
      (atts.foldl (download_step ok) m) att.title = some (attachment_local_path att) ∧
      (atts.foldl (download_step ok) m) att.download = some (attachment_local_path att) := by
  intro atts
  induction atts with
  | nil => intro m hmem _; simp at hmem
  | cons a rest ih =>
    intro m hmem hsep
    rw [List.foldl_cons]
    by_cases ha : a = att
    · subst ha
      have hsep' : ∀ att' ∈ rest, ok att' = true →
          (att'.title = a.title ∨ att'.download = a.title) ∨
          (att'.title = a.download ∨ att'.download = a.download) →
          attachment_local_path att' = attachment_local_path a := by
        intro att' h' hok' hkey
        by_cases he : att' = a
        · rw [he]
        · exfalso
          obtain ⟨h1, h2, h3, h4⟩ := hsep att' (List.mem_cons_of_mem a h') hok' he
          rcases hkey with (h | h) | (h | h)
          · exact h1 h
          · exact h3 h
          · exact h2 h
          · exact h4 h
      have hstep_t : (download_step ok m a) a.title = some (attachment_local_path a) := by
        unfold download_step dictSet
        rw [if_pos hok]
        by_cases htd : a.title = a.download
        · rw [if_pos htd]
        · rw [if_neg htd, if_pos rfl]
      have hstep_d : (download_step ok m a) a.download = some (attachment_local_path a) := by
        unfold download_step dictSet
        rw [if_pos hok, if_pos rfl]
      constructor
      · exact download_fold_keeps ok a.title (attachment_local_path a) rest
          (download_step ok m a) hstep_t
          (fun att' h' hok' hkey => hsep' att' h' hok' (Or.inl hkey))
      · exact download_fold_keeps ok a.download (attachment_local_path a) rest
          (download_step ok m a) hstep_d
          (fun att' h' hok' hkey => hsep' att' h' hok' (Or.inr hkey))
    · have hmem' : att ∈ rest := by
        rcases List.mem_cons.mp hmem with h | h
        · exact absurd h.symm ha
        · exact h
      exact ih (download_step ok m a) hmem'
        (fun att' h' => hsep att' (List.mem_cons_of_mem a h'))

/-! ## Claim C5: two mapping entries per downloaded attachment -/

/-- C5. For an attachment whose download succeeds, and whose two keys are
not reused by any other successful attachment of the page, the url_mapping
maps both the plain filename and the raw download reference to the same
relative path attachments/<sanitized filename>. -/
theorem download_attachments_mapping_two_entries (ok : Attachment → Bool)
    (atts : List Attachment) (att : Attachment) (hmem : att ∈ atts)
    (hok : ok att = true)
    (hsep : ∀ att' ∈ atts, ok att' = true → att' ≠ att →
      att'.title ≠ att.title ∧ att'.title ≠ att.download ∧
      att'.download ≠ att.title ∧ att'.download ≠ att.download)
    (htd : att.title ≠ att.download) :
    download_attachments_mapping ok atts att.title = some (attachment_local_path att) ∧
    download_attachments_mapping ok atts att.download = some (attachment_local_path att) ∧
    att.title ≠ att.download :=
  ⟨(download_fold_two_entries ok att hok atts (fun _ => none) hmem hsep).1,
   (download_fold_two_entries ok att hok atts (fun _ => none) hmem hsep).2,
   htd⟩

/-- Witness for C5: downloading "diagram v1.png" yields the local path
attachments/diagram_v1.png under both the filename key and the raw
download-reference key. -/
theorem download_attachments_mapping_two_entries_witness :
    download_attachments_mapping (fun _ => true)
        [⟨"diagram v1.png", "/download/attachments/123/diagram%20v1.png"⟩]
        "diagram v1.png" = some "attachments/diagram_v1.png" ∧
      download_attachments_mapping (fun _ => true)
        [⟨"diagram v1.png", "/download/attachments/123/diagram%20v1.png"⟩]
        "/download/attachments/123/diagram%20v1.png" = some "attachments/diagram_v1.png" := by
  have h := download_attachments_mapping_two_entries (fun _ => true)
    [⟨"diagram v1.png", "/download/attachments/123/diagram%20v1.png"⟩]
    ⟨"diagram v1.png", "/download/attachments/123/diagram%20v1.png"⟩
    (List.mem_singleton.mpr rfl) rfl
    (by
      intro att' h' _ hne
      rw [List.mem_singleton] at h'
      exact absurd h' hne)
    (by decide)
  have hpath : attachment_local_path
      ⟨"diagram v1.png", "/download/attachments/123/diagram%20v1.png"⟩ =
        "attachments/diagram_v1.png" := by decide
  rw [hpath] at h
  exact ⟨h.1, h.2.1⟩

/-! ## Claim C9: failed downloads leave the mapping untouched -/

theorem download_fold_filter (ok : Attachment → Bool) :
    ∀ (atts : List Attachment) (m : String → Option String),
      atts.foldl (download_step ok) m = (atts.filter ok).foldl (download_step ok) m := by
  intro atts
  induction atts with
  | nil => intro m; rfl
  | cons a rest ih =>
    intro m
    rw [List.foldl_cons, List.filter_cons]
    by_cases hok : ok a = true
    · rw [if_pos hok, List.foldl_cons]
      exact ih (download_step ok m a)
    · have hstep : download_step ok m a = m := by
        unfold download_step
        rw [if_neg (by simpa using hok)]
      rw [hstep, if_neg (by simpa using hok)]
      exact ih m

theorem download_fold_provenance (ok : Attachment → Bool) :
    ∀ (atts : List Attachment) (m : String → Option String) (k : String),
      (atts.foldl (download_step ok) m) k ≠ none →
      m k ≠ none ∨ ∃ att ∈ atts, ok att = true ∧ (k = att.title ∨ k = att.download) := by
  intro atts
  induction atts with
  | nil => intro m k h; exact Or.inl h
  | cons a rest ih =>
    intro m k h
    rw [List.foldl_cons] at h
    rcases ih (download_step ok m a) k h with h' | ⟨att, hatt, hok', hkey⟩
    · unfold download_step dictSet at h'
      by_cases hok : ok a = true
      · rw [if_pos hok] at h'
        by_cases hkd : k = a.download
        · exact Or.inr ⟨a, List.mem_cons_self a rest, hok, Or.inr hkd⟩
        · rw [if_neg hkd] at h'
          by_cases hkt : k = a.title
          · exact Or.inr ⟨a, List.mem_cons_self a rest, hok, Or.inl hkt⟩
          · rw [if_neg hkt] at h'
            exact Or.inl h'
      · rw [if_neg (by simpa using hok)] at h'
        exact Or.inl h'
    · exact Or.inr ⟨att, List.mem_cons_of_mem a hatt, hok', hkey⟩

/-- C9. Mapping entries exist only for attachments whose download
succeeded, and failed downloads contribute nothing: the mapping built over
the full attachment list equals the one built over only the successful
attachments, and every key of the mapping is the filename or the download
reference of some successful attachment. -/
theorem download_attachments_mapping_failures (ok : Attachment → Bool)
    (atts : List Attachment) :
    (∀ k, download_attachments_mapping ok atts k =
        download_attachments_mapping ok (atts.filter ok) k) ∧
    (∀ k, download_attachments_mapping ok atts k ≠ none →
      ∃ att ∈ atts, ok att = true ∧ (k = att.title ∨ k = att.download)) := by
  constructor
  · intro k
    unfold download_attachments_mapping
    rw [download_fold_filter]
  · intro k h
    rcases download_fold_provenance ok atts (fun _ => none) k h with h' | h'
    · exact absurd rfl h'
    · exact h'

/-- Witness for C9: with the download of "bad.png" failing, the mapping
equals the one built from the successful attachments alone, and the key
"bad.png" is absent while "good.png" still maps to its local path. -/
theorem download_attachments_mapping_failures_witness :
    (∀ k, download_attachments_mapping (fun att => att.title == "good.png")
        [⟨"good.png", "/d/good.png"⟩, ⟨"bad.png", "/d/bad.png"⟩] k =
      download_attachments_mapping (fun att => att.title == "good.png")
        ([⟨"good.png", "/d/good.png"⟩, ⟨"bad.png", "/d/bad.png"⟩].filter
          (fun att => att.title == "good.png")) k) ∧
    download_attachments_mapping (fun att => att.title == "good.png")
      [⟨"good.png", "/d/good.png"⟩, ⟨"bad.png", "/d/bad.png"⟩] "bad.png" = none ∧
    download_attachments_mapping (fun att => att.title == "good.png")
      [⟨"good.png", "/d/good.png"⟩, ⟨"bad.png", "/d/bad.png"⟩] "good.png" =
        some "attachments/good.png" := by
  refine ⟨(download_attachments_mapping_failures (fun att => att.title == "good.png")
    [⟨"good.png", "/d/good.png"⟩, ⟨"bad.png", "/d/bad.png"⟩]).1, by decide, by decide⟩

/-! ### Link substitution lemmas -/

theorem replaceAuxF_eq_self (pat rep : List Char) :
    ∀ (fuel : Nat) (s : List Char), ¬ (pat <:+: s) →
      replaceAuxF pat rep fuel s = s := by
  intro fuel
  induction fuel with
  | zero =>
    intro s _
    cases s with
    | nil => rfl
    | cons c rest => rfl
  | succ fuel ih =>
    intro s hs
    cases s with
    | nil => rfl
    | cons c rest =>
      have hcond : ¬ (pat ≠ [] ∧ pat.isPrefixOf (c :: rest)) := by
        rintro ⟨-, hpre⟩
        exact hs ( List.isPrefixOf_iff_prefix.mp hpre).isInfix
      rw [replaceAuxF, if_neg hcond]
      congr 1
      refine ih rest ?_
      intro habs
      exact hs (habs.trans (List.suffix_cons c rest).isInfix)

theorem pyReplace_eq_self (pat rep s : List Char) (h : ¬ (pat <:+: s)) :
    pyReplace pat rep s = s := by
  unfold pyReplace
  rw [if_neg (fun hnil => h (by rw [hnil]; exact List.nil_infix))]
  exact replaceAuxF_eq_self pat rep s.length s h

theorem substitute_links_fold_eq_self (url_mapping : List (List Char × List Char)) :
    ∀ (t : List Char), (∀ kv ∈ url_mapping, ¬ (kv.1 <:+: t)) →
      substitute_links url_mapping t = t := by
  unfold substitute_links
  induction url_mapping with
  | nil => intro t _; rfl
  | cons kv rest ih =>
    intro t hall
    rw [List.foldl_cons, pyReplace_eq_self kv.1 kv.2 t (hall kv (List.mem_cons_self kv rest))]
    exact ih t (fun kv' h' => hall kv' (List.mem_cons_of_mem kv h'))

/-! ## Claim C7: idempotence of the link-substitution pass -/

/-- C7 (amended): the substitution pass is idempotent whenever no mapping
key occurs as a substring of the once-substituted text; the original
proviso, that no mapping value contains a mapping key, is not enough,
because a replacement can butt against the remaining text and form a new
key occurrence across the boundary. -/
theorem substitute_links_idempotent (url_mapping : List (List Char × List Char))
    (md_content : List Char)
    (h : ∀ kv ∈ url_mapping, ¬ (kv.1 <:+: substitute_links url_mapping md_content)) :
    substitute_links url_mapping (substitute_links url_mapping md_content) =
      substitute_links url_mapping md_content :=
  substitute_links_fold_eq_self url_mapping (substitute_links url_mapping md_content) h

/-- Witness for C7 (amended) on the mapping x -> y and the text "x". -/
theorem substitute_links_idempotent_witness :
    (∀ kv ∈ ([(['x'], ['y'])] : List (List Char × List Char)),
      ¬ (kv.1 <:+: substitute_links [(['x'], ['y'])] ['x'])) ∧
    substitute_links [(['x'], ['y'])] (substitute_links [(['x'], ['y'])] ['x']) =
      substitute_links [(['x'], ['y'])] ['x'] :=
  ⟨by decide, substitute_links_idempotent [(['x'], ['y'])] ['x'] (by decide)⟩

/-- Counterexample to C7 as stated: with the mapping ab -> a (whose value
does not contain the key) on the text "abb", one pass produces "ab" -- the
replacement "a" butts against the leftover "b" and recreates the key -- and
the second pass rewrites it again. -/
theorem substitute_links_idempotent_counterexample :
    (∀ kv ∈ ([(['a', 'b'], ['a'])] : List (List Char × List Char)),
      ∀ kv' ∈ ([(['a', 'b'], ['a'])] : List (List Char × List Char)),
        ¬ (kv.1 <:+: kv'.2)) ∧
    substitute_links [(['a', 'b'], ['a'])]
        (substitute_links [(['a', 'b'], ['a'])] ['a', 'b', 'b']) ≠
      substitute_links [(['a', 'b'], ['a'])] ['a', 'b', 'b'] := by
  constructor
  · decide
  · decide

/-! ## Claim C6: the index.md layout -/

/-- C6. The written index.md text is the optional front-matter block
(present exactly when the page has labels), followed by the single
"# title" heading built from the page title, followed by the converted
Markdown body. -/
theorem export_page_content_format (page_title : List Char)
    (label_names : List (List Char)) (md_content : List Char) :
    export_page_content page_title label_names md_content =
      (if label_names = [] then [] else
        "---\nlabels: ".data ++ List.intercalate ", ".data label_names ++
          "\n---\n\n".data) ++
        "# ".data ++ page_title ++ "\n\n".data ++ md_content ∧
    ((∃ r, export_page_content page_title label_names md_content =
        "---\nlabels: ".data ++ r) ↔ label_names ≠ []) := by
  by_cases hl : label_names = []
  · subst hl
    refine ⟨by simp [export_page_content], ?_⟩
    constructor
    · rintro ⟨r, hr⟩
      exfalso
      simp only [export_page_content, ne_eq, not_true_eq_false, if_false] at hr
      have h0 := congrArg (fun l => l.head?) hr
      simp at h0
    · intro h
      exact absurd rfl h
  · constructor
    · simp only [export_page_content, ne_eq, hl, not_false_iff, if_true]
      simp
    · constructor
      · intro _
        exact hl
      · intro _
        refine ⟨List.intercalate ", ".data label_names ++ "\n---\n\n".data ++
          ("# ".data ++ page_title ++ "\n\n".data ++ md_content), ?_⟩
        simp only [export_page_content, ne_eq, hl, not_false_iff, if_true]
        simp

/-! ### Reachability facts for the path-assignment traversal -/

theorem cm_mem (pages : List Page) {pid : String} {q : Page}
    (h : q ∈ (build_hierarchy pages).children_map pid) :
    q ∈ pages ∧ q.ancestors.getLast? = some pid ∧ pid ∈ pages.map Page.id := by
  rw [build_hierarchy_cm] at h
  have h' := List.mem_filter.mp h
  have hc := h'.2
  unfold isChildOf at hc
  rw [Bool.and_eq_true] at hc
  exact ⟨h'.1, eq_of_beq hc.1, of_decide_eq_true hc.2⟩

theorem roots_mem (pages : List Page) {r : Page}
    (h : r ∈ (build_hierarchy pages).roots) :
    r ∈ pages ∧ isRootPage (pages.map Page.id) r = true := by
  rw [build_hierarchy_roots] at h
  exact ⟨(List.mem_filter.mp h).1, (List.mem_filter.mp h).2⟩

theorem id_inj (pages : List Page) (hnd : (pages.map Page.id).Nodup)
    {a b : Page} (ha : a ∈ pages) (hb : b ∈ pages) (h : a.id = b.id) : a = b :=
  List.inj_on_of_nodup_map hnd ha hb h

theorem root_not_child (pages : List Page) {r : Page}
    (hr : isRootPage (pages.map Page.id) r = true) (pid : String) :
    r ∉ (build_hierarchy pages).children_map pid := by
  intro hmem
  obtain ⟨-, hlast, hin⟩ := cm_mem pages hmem
  unfold isRootPage at hr
  rw [hlast] at hr
  exact (of_decide_eq_true hr) hin

theorem reach_trans {cm : String → List Page} {p q r : Page}
    (h1 : Reach cm p q) (h2 : Reach cm q r) : Reach cm p r := by
  induction h2 with
  | refl => exact h1
  | step _ hmem ih => exact Reach.step ih hmem

theorem reach_mem_pages (pages : List Page) {p x : Page}
    (h : Reach (build_hierarchy pages).children_map p x) (hp : p ∈ pages) :
    x ∈ pages := by
  induction h with
  | refl => exact hp
  | step _ hmem _ => exact (cm_mem pages hmem).1

theorem reach_depth (pages : List Page)
    (hwf : ∀ p ∈ pages, ∀ a ∈ pages, p.ancestors.getLast? = some a.id →
      a.ancestors.length < p.ancestors.length)
    {p x : Page} (h : Reach (build_hierarchy pages).children_map p x) (hp : p ∈ pages) :
    p = x ∨ p.ancestors.length < x.ancestors.length := by
  induction h with
  | refl => exact Or.inl rfl
  | @step q r hpq hmem ih =>
    obtain ⟨hr, hlast, -⟩ := cm_mem pages hmem
    have hq : q ∈ pages := reach_mem_pages pages hpq hp
    have hlt : q.ancestors.length < r.ancestors.length := hwf r hr q hq hlast
    rcases ih with rfl | hd
    · exact Or.inr hlt
    · exact Or.inr (hd.trans hlt)

theorem reach_back {cm : String → List Page} {p x : Page} (h : Reach cm p x) :
    p = x ∨ ∃ y, Reach cm p y ∧ x ∈ cm y.id := by
  cases h with
  | refl => exact Or.inl rfl
  | step h1 hmem => exact Or.inr ⟨_, h1, hmem⟩

theorem no_reach_up (pages : List Page)
    (hwf : ∀ p ∈ pages, ∀ a ∈ pages, p.ancestors.getLast? = some a.id →
      a.ancestors.length < p.ancestors.length)
    {p c : Page} (hp : p ∈ pages)
    (hc : c ∈ (build_hierarchy pages).children_map p.id) :
    ¬ Reach (build_hierarchy pages).children_map c p := by
  intro hr
  have hcp : c ∈ pages := (cm_mem pages hc).1
  have h1 : p.ancestors.length < c.ancestors.length :=
    hwf c hcp p hp (cm_mem pages hc).2.1
  rcases reach_depth pages hwf hr hcp with rfl | h2
  · exact lt_irrefl _ h1
  · exact lt_irrefl _ (h1.trans h2)

theorem reach_comparable (pages : List Page) (hnd : (pages.map Page.id).Nodup)
    (hwf : ∀ p ∈ pages, ∀ a ∈ pages, p.ancestors.getLast? = some a.id →
      a.ancestors.length < p.ancestors.length) :
    ∀ (n : Nat) (x : Page), x.ancestors.length = n →
      ∀ p1 p2 : Page, p1 ∈ pages → p2 ∈ pages →
        Reach (build_hierarchy pages).children_map p1 x →
        Reach (build_hierarchy pages).children_map p2 x →
        Reach (build_hierarchy pages).children_map p1 p2 ∨
          Reach (build_hierarchy pages).children_map p2 p1 := by
  intro n
  induction n using Nat.strong_induction_on with
  | _ n ih =>
    intro x hxn p1 p2 hp1 hp2 h1 h2
    rcases reach_back h1 with rfl | ⟨y1, hry1, hx1⟩
    · exact Or.inr h2
    rcases reach_back h2 with rfl | ⟨y2, hry2, hx2⟩
    · exact Or.inl h1
    have hid : y1.id = y2.id := by
      have e1 := (cm_mem pages hx1).2.1
      have e2 := (cm_mem pages hx2).2.1
      rw [e1] at e2
      injection e2
    have hy1 : y1 ∈ pages := reach_mem_pages pages hry1 hp1
    have hy2 : y2 ∈ pages := reach_mem_pages pages hry2 hp2
    have heq : y1 = y2 := id_inj pages hnd hy1 hy2 hid
    subst heq
    have hlt : y1.ancestors.length < n := by
      rw [← hxn]
      exact hwf x (reach_mem_pages pages h1 hp1) y1 hy1 (cm_mem pages hx1).2.1
    exact ih y1.ancestors.length hlt y1 rfl p1 p2 hp1 hp2 hry1 hry2

theorem sep_siblings (pages : List Page) (hnd : (pages.map Page.id).Nodup)
    (hwf : ∀ p ∈ pages, ∀ a ∈ pages, p.ancestors.getLast? = some a.id →
      a.ancestors.length < p.ancestors.length)
    {pid : String} {c1 c2 x : Page}
    (h1 : c1 ∈ (build_hierarchy pages).children_map pid)
    (h2 : c2 ∈ (build_hierarchy pages).children_map pid)
    (hr1 : Reach (build_hierarchy pages).children_map c1 x)
    (hr2 : Reach (build_hierarchy pages).children_map c2 x) : c1 = c2 := by
  have hc1 : c1 ∈ pages := (cm_mem pages h1).1
  have hc2 : c2 ∈ pages := (cm_mem pages h2).1
  have key : ∀ a b : Page, a ∈ (build_hierarchy pages).children_map pid →
      b ∈ (build_hierarchy pages).children_map pid →
      Reach (build_hierarchy pages).children_map a b → a = b := by
    intro a b ha hb hab
    rcases reach_back hab with rfl | ⟨y, hry, hby⟩
    · rfl
    · exfalso
      have hyid : y.id = pid := by
        have e1 := (cm_mem pages hb).2.1
        have e2 := (cm_mem pages hby).2.1
        rw [e1] at e2
        injection e2 with e3
        exact e3.symm
      have hy : y ∈ pages := reach_mem_pages pages hry (cm_mem pages ha).1
      have ha' : a ∈ (build_hierarchy pages).children_map y.id := by
        rw [hyid]
        exact ha
      exact no_reach_up pages hwf hy ha' hry
  rcases reach_comparable pages hnd hwf x.ancestors.length x rfl c1 c2 hc1 hc2 hr1 hr2
    with hc | hc
  · exact key c1 c2 h1 h2 hc
  · exact (key c2 c1 h2 h1 hc).symm

theorem sep_roots (pages : List Page) (hnd : (pages.map Page.id).Nodup)
    (hwf : ∀ p ∈ pages, ∀ a ∈ pages, p.ancestors.getLast? = some a.id →
      a.ancestors.length < p.ancestors.length)
    {r1 r2 x : Page}
    (h1 : r1 ∈ (build_hierarchy pages).roots) (h2 : r2 ∈ (build_hierarchy pages).roots)
    (hr1 : Reach (build_hierarchy pages).children_map r1 x)
    (hr2 : Reach (build_hierarchy pages).children_map r2 x) : r1 = r2 := by
  have hp1 : r1 ∈ pages := (roots_mem pages h1).1
  have hp2 : r2 ∈ pages := (roots_mem pages h2).1
  have key : ∀ a b : Page, a ∈ (build_hierarchy pages).roots →
      b ∈ (build_hierarchy pages).roots →
      Reach (build_hierarchy pages).children_map a b → a = b := by
    intro a b _ hb hab
    rcases reach_back hab with rfl | ⟨y, _, hby⟩
    · rfl
    · exact absurd hby (root_not_child pages (roots_mem pages hb).2 y.id)
  rcases reach_comparable pages hnd hwf x.ancestors.length x rfl r1 r2 hp1 hp2 hr1 hr2
    with hc | hc
  · exact key r1 r2 h1 h2 hc
  · exact (key r2 r1 h2 h1 hc).symm

theorem visited_reach (cmf : String → List Page) :
    ∀ (fuel : Nat) (cs : List Page) (x : Page), x ∈ visited_pages cmf fuel cs →
      ∃ c ∈ cs, Reach cmf c x := by
  intro fuel
  induction fuel with
  | zero =>
    intro cs x h
    cases cs with
    | nil => simp [visited_pages] at h
    | cons page rest => simp [visited_pages] at h
  | succ fuel ih =>
    intro cs x h
    cases cs with
    | nil => simp [visited_pages] at h
    | cons page rest =>
      simp only [visited_pages, List.mem_cons, List.mem_append] at h
      rcases h with rfl | h | h
      · exact ⟨x, List.mem_cons_self _ _, Reach.refl x⟩
      · obtain ⟨c, hc, hr⟩ := ih (cmf page.id) x h
        exact ⟨page, List.mem_cons_self _ _,
          reach_trans (Reach.step (Reach.refl page) hc) hr⟩
      · obtain ⟨c, hc, hr⟩ := ih rest x h
        exact ⟨c, List.mem_cons_of_mem _ hc, hr⟩

theorem visited_nodup (pages : List Page) (hnd : (pages.map Page.id).Nodup)
    (hwf : ∀ p ∈ pages, ∀ a ∈ pages, p.ancestors.getLast? = some a.id →
      a.ancestors.length < p.ancestors.length) :
    ∀ (fuel : Nat) (cs : List Page), (∀ c ∈ cs, c ∈ pages) → cs.Nodup →
      (∀ c1 ∈ cs, ∀ c2 ∈ cs, ∀ x : Page,
        Reach (build_hierarchy pages).children_map c1 x →
        Reach (build_hierarchy pages).children_map c2 x → c1 = c2) →
      ((visited_pages (build_hierarchy pages).children_map fuel cs).map Page.id).Nodup := by
  intro fuel
  induction fuel with
  | zero =>
    intro cs _ _ _
    cases cs with
    | nil => simp [visited_pages]
    | cons page rest => simp [visited_pages]
  | succ fuel ih =>
    intro cs hsub hndl hsep
    cases cs with
    | nil => simp [visited_pages]
    | cons page rest =>
      have hpage : page ∈ pages := hsub page (List.mem_cons_self _ _)
      simp only [visited_pages, List.map_cons, List.map_append]
      rw [List.nodup_cons]
      constructor
      · intro hmem
        rw [List.mem_append] at hmem
        rcases hmem with hmem | hmem
        · obtain ⟨x, hx, hxid⟩ := List.mem_map.mp hmem
          obtain ⟨c, hc, hrc⟩ :=
            visited_reach (build_hierarchy pages).children_map fuel _ x hx
          have hx_pages : x ∈ pages :=
            reach_mem_pages pages hrc (cm_mem pages hc).1
          have hxp : x = page := id_inj pages hnd hx_pages hpage hxid
          subst hxp
          exact no_reach_up pages hwf hpage hc hrc
        · obtain ⟨x, hx, hxid⟩ := List.mem_map.mp hmem
          obtain ⟨c, hc, hrc⟩ :=
            visited_reach (build_hierarchy pages).children_map fuel rest x hx
          have hx_pages : x ∈ pages :=
            reach_mem_pages pages hrc (hsub c (List.mem_cons_of_mem _ hc))
          have hxp : x = page := id_inj pages hnd hx_pages hpage hxid
          subst hxp
          have hcx : c = x := hsep c (List.mem_cons_of_mem _ hc) x
            (List.mem_cons_self _ _) x hrc (Reach.refl x)
          subst hcx
          exact (List.nodup_cons.mp hndl).1 hc
      · rw [List.nodup_append]
        refine ⟨?_, ?_, ?_⟩
        · refine ih ((build_hierarchy pages).children_map page.id)
            (fun c hc => (cm_mem pages hc).1) ?_ ?_
          · rw [build_hierarchy_cm]
            exact (List.Nodup.of_map _ hnd).filter _
          · intro c1 hc1 c2 hc2 x hr1 hr2
            exact sep_siblings pages hnd hwf hc1 hc2 hr1 hr2
        · exact ih rest (fun c hc => hsub c (List.mem_cons_of_mem _ hc))
            (List.nodup_cons.mp hndl).2
            (fun c1 hc1 c2 hc2 x hr1 hr2 => hsep c1 (List.mem_cons_of_mem _ hc1)
              c2 (List.mem_cons_of_mem _ hc2) x hr1 hr2)
        · intro k hk1 hk2
          obtain ⟨x1, hx1, hid1⟩ := List.mem_map.mp hk1
          obtain ⟨x2, hx2, hid2⟩ := List.mem_map.mp hk2
          obtain ⟨c1, hc1, hr1⟩ :=
            visited_reach (build_hierarchy pages).children_map fuel _ x1 hx1
          obtain ⟨c2, hc2, hr2⟩ :=
            visited_reach (build_hierarchy pages).children_map fuel rest x2 hx2
          have hx1p : x1 ∈ pages := reach_mem_pages pages hr1 (cm_mem pages hc1).1
          have hx2p : x2 ∈ pages :=
            reach_mem_pages pages hr2 (hsub c2 (List.mem_cons_of_mem _ hc2))
          have hx12 : x1 = x2 := id_inj pages hnd hx1p hx2p (by rw [hid1, hid2])
          subst hx12
          have hreach_page : Reach (build_hierarchy pages).children_map page x1 :=
            reach_trans (Reach.step (Reach.refl page) hc1) hr1
          have : page = c2 := hsep page (List.mem_cons_self _ _) c2
            (List.mem_cons_of_mem _ hc2) x1 hreach_page hr2
          subst this
          exact (List.nodup_cons.mp hndl).1 hc2

theorem goodpaths_write (pages : List Page) (output_dir : List String)
    (hnd : (pages.map Page.id).Nodup) {page : Page} (hpage : page ∈ pages)
    {ppath : List String} {pp : PathMap}
    (hfresh : pp page.id = none)
    (hroot : isRootPage (pages.map Page.id) page = true → ppath = output_dir)
    (hparent : ∀ a, page.ancestors.getLast? = some a → a ∈ pages.map Page.id →
      pp a = some ppath)
    (hInv : GoodPaths pages output_dir pp) :
    GoodPaths pages output_dir
      (fun k => if k = page.id then some (ppath ++ [sanitizeStr page.title]) else pp k) := by
  intro p hp q' hq'
  by_cases hidp : p.id = page.id
  · have hpq : p = page := id_inj pages hnd hp hpage hidp
    subst hpq
    have hq2 : (if p.id = p.id then some (ppath ++ [sanitizeStr p.title]) else pp p.id) =
        some q' := hq'
    rw [if_pos rfl] at hq2
    injection hq2 with hq2
    subst hq2
    constructor
    · intro hr
      rw [hroot hr]
    · intro a ha hain
      have hane : a ≠ p.id := by
        intro habs
        have hcontra := hparent a ha hain
        rw [habs, hfresh] at hcontra
        exact Option.noConfusion hcontra
      refine ⟨ppath, ?_, rfl⟩
      show (if a = p.id then some (ppath ++ [sanitizeStr p.title]) else pp a) = some ppath
      rw [if_neg hane]
      exact hparent a ha hain
  · have hq2 : (if p.id = page.id then some (ppath ++ [sanitizeStr page.title])
        else pp p.id) = some q' := hq'
    rw [if_neg hidp] at hq2
    obtain ⟨hroot', hchild'⟩ := hInv p hp q' hq2
    refine ⟨hroot', ?_⟩
    intro a ha hain
    obtain ⟨pa, hpa, heq⟩ := hchild' a ha hain
    have hane : a ≠ page.id := by
      intro habs
      rw [habs, hfresh] at hpa
      exact Option.noConfusion hpa
    refine ⟨pa, ?_, heq⟩
    show (if a = page.id then some (ppath ++ [sanitizeStr page.title]) else pp a) = some pa
    rw [if_neg hane]
    exact hpa

theorem process_pages_master (pages : List Page) (output_dir : List String)
    (hnd : (pages.map Page.id).Nodup) :
    ∀ (fuel : Nat) (cs : List Page) (ppath : List String) (pp pq : PathMap),
      process_pages (build_hierarchy pages).children_map fuel cs ppath pp = some pq →
      (∀ c ∈ cs, c ∈ pages) →
      (∀ c ∈ cs, (isRootPage (pages.map Page.id) c = true → ppath = output_dir) ∧
        (∀ a, c.ancestors.getLast? = some a → a ∈ pages.map Page.id →
          pp a = some ppath)) →
      (∀ k ∈ (visited_pages (build_hierarchy pages).children_map fuel cs).map Page.id,
        pp k = none) →
      ((visited_pages (build_hierarchy pages).children_map fuel cs).map Page.id).Nodup →
      GoodPaths pages output_dir pp →
      GoodPaths pages output_dir pq ∧
        (∀ k, pp k ≠ none → pq k = pp k) ∧
        (∀ k, k ∉ (visited_pages (build_hierarchy pages).children_map fuel cs).map Page.id →
          pq k = pp k) := by
  intro fuel
  induction fuel with
  | zero =>
    intro cs ppath pp pq hrun hsub hcall hfresh hnodupV hInv
    cases cs with
    | nil =>
      simp only [process_pages] at hrun
      injection hrun with h
      subst h
      exact ⟨hInv, fun k _ => rfl, fun k _ => rfl⟩
    | cons page rest => simp [process_pages] at hrun
  | succ fuel ih =>
    intro cs ppath pp pq hrun hsub hcall hfresh hnodupV hInv
    cases cs with
    | nil =>
      simp only [process_pages] at hrun
      injection hrun with h
      subst h
      exact ⟨hInv, fun k _ => rfl, fun k _ => rfl⟩
    | cons page rest =>
      have hpage : page ∈ pages := hsub page (List.mem_cons_self _ _)
      have hvis : visited_pages (build_hierarchy pages).children_map (fuel+1)
          (page :: rest) =
          page :: (visited_pages (build_hierarchy pages).children_map fuel
              ((build_hierarchy pages).children_map page.id) ++
            visited_pages (build_hierarchy pages).children_map fuel rest) := rfl
      have hmem_iff : ∀ k,
          k ∈ (visited_pages (build_hierarchy pages).children_map (fuel+1)
            (page :: rest)).map Page.id ↔
          (k = page.id ∨
            k ∈ ((visited_pages (build_hierarchy pages).children_map fuel
              ((build_hierarchy pages).children_map page.id)).map Page.id) ∨
            k ∈ ((visited_pages (build_hierarchy pages).children_map fuel
              rest).map Page.id)) := by
        intro k
        rw [hvis]
        simp
      have hfresh_page : pp page.id = none :=
        hfresh page.id ((hmem_iff page.id).mpr (Or.inl rfl))
      have hnodup' := hnodupV
      rw [hvis] at hnodup'
      simp only [List.map_cons, List.map_append, List.nodup_cons,
        List.nodup_append] at hnodup'
      obtain ⟨hnotin, hnd1, hnd2, hdisj⟩ := hnodup'
      have hnotin1 : page.id ∉ (visited_pages (build_hierarchy pages).children_map fuel
          ((build_hierarchy pages).children_map page.id)).map Page.id := by
        intro hk
        exact hnotin (List.mem_append.mpr (Or.inl hk))
      have hnotin2 : page.id ∉ (visited_pages (build_hierarchy pages).children_map fuel
          rest).map Page.id := by
        intro hk
        exact hnotin (List.mem_append.mpr (Or.inr hk))
      simp only [process_pages] at hrun
      cases hstep : process_pages (build_hierarchy pages).children_map fuel
          ((build_hierarchy pages).children_map page.id)
          (ppath ++ [sanitizeStr page.title])
          (fun k => if k = page.id then some (ppath ++ [sanitizeStr page.title])
            else pp k) with
      | none =>
        rw [hstep] at hrun
        cases hrun
      | some pp2 =>
        rw [hstep] at hrun
        have hInv1 : GoodPaths pages output_dir
            (fun k => if k = page.id then some (ppath ++ [sanitizeStr page.title])
              else pp k) :=
          goodpaths_write pages output_dir hnd hpage hfresh_page
            (hcall page (List.mem_cons_self _ _)).1
            (hcall page (List.mem_cons_self _ _)).2 hInv
        obtain ⟨hInv2, hstable1, hframe1⟩ := ih
          ((build_hierarchy pages).children_map page.id)
          (ppath ++ [sanitizeStr page.title])
          (fun k => if k = page.id then some (ppath ++ [sanitizeStr page.title])
            else pp k) pp2 hstep
          (fun c hc => (cm_mem pages hc).1)
          (by
            intro c hc
            constructor
            · intro hr
              exact absurd hc (root_not_child pages hr page.id)
            · intro a ha hain
              have haid : a = page.id := by
                have e1 := (cm_mem pages hc).2.1
                rw [ha] at e1
                injection e1
              subst haid
              exact if_pos rfl)
          (by
            intro k hk
            have hkne : k ≠ page.id := by
              intro habs
              rw [habs] at hk
              exact hnotin1 hk
            show (if k = page.id then some (ppath ++ [sanitizeStr page.title])
              else pp k) = none
            rw [if_neg hkne]
            exact hfresh k ((hmem_iff k).mpr (Or.inr (Or.inl hk))))
          hnd1 hInv1
        obtain ⟨hInvq, hstable2, hframe2⟩ := ih rest ppath pp2 pq hrun
          (fun c hc => hsub c (List.mem_cons_of_mem _ hc))
          (by
            intro c hc
            refine ⟨(hcall c (List.mem_cons_of_mem _ hc)).1, ?_⟩
            intro a ha hain
            have hppa : pp a = some ppath :=
              (hcall c (List.mem_cons_of_mem _ hc)).2 a ha hain
            have hane : a ≠ page.id := by
              intro habs
              rw [habs, hfresh_page] at hppa
              exact Option.noConfusion hppa
            have hpp1a : (if a = page.id then
                some (ppath ++ [sanitizeStr page.title]) else pp a) = some ppath := by
              rw [if_neg hane]
              exact hppa
            have := hstable1 a (by
              show (if a = page.id then some (ppath ++ [sanitizeStr page.title])
                else pp a) ≠ none
              rw [hpp1a]
              exact fun habs => Option.noConfusion habs)
            rw [this]
            exact hpp1a)
          (by
            intro k hk
            have hkne : k ≠ page.id := by
              intro habs
              rw [habs] at hk
              exact hnotin2 hk
            have hknotin1 : k ∉ (visited_pages (build_hierarchy pages).children_map fuel
                ((build_hierarchy pages).children_map page.id)).map Page.id := by
              intro habs
              exact hdisj habs hk
            have h1 := hframe1 k hknotin1
            rw [h1]
            show (if k = page.id then some (ppath ++ [sanitizeStr page.title])
              else pp k) = none
            rw [if_neg hkne]
            exact hfresh k ((hmem_iff k).mpr (Or.inr (Or.inr hk))))
          hnd2 hInv2
        refine ⟨hInvq, ?_, ?_⟩
        · intro k hkne
          have hkne_page : k ≠ page.id := by
            intro habs
            rw [habs, hfresh_page] at hkne
            exact hkne rfl
          have hpp1k : (if k = page.id then some (ppath ++ [sanitizeStr page.title])
              else pp k) = pp k := if_neg hkne_page
          have h1 := hstable1 k (by rw [hpp1k]; exact hkne)
          have h2 := hstable2 k (by rw [h1, hpp1k]; exact hkne)
          rw [h2, h1, hpp1k]
        · intro k hknot
          have hk3 := (hmem_iff k).not.mp hknot
          push_neg at hk3
          obtain ⟨hk_page, hk_v1, hk_v2⟩ := hk3
          have h2 := hframe2 k hk_v2
          have h1 := hframe1 k hk_v1
          rw [h2, h1]
          exact if_neg hk_page

/-! ## Claim C2: assigned paths follow the hierarchy -/

/-- C2. For a hierarchy built by build_hierarchy from pages with distinct
ids and well-formed ancestor chains (each page's chain is one longer than
its parent's, as the spec's data model prescribes), when
determine_page_paths returns, every page path it assigned satisfies the
invariant: a root page's path is the output root extended by its sanitized
title, and a non-root page's path is its parent's assigned path extended
by its sanitized title. -/
theorem determine_page_paths_invariant (pages : List Page) (output_dir : List String)
    (fuel : Nat) (m : PathMap)
    (hnd : (pages.map Page.id).Nodup)
    (hwf : ∀ p ∈ pages, ∀ a ∈ pages, p.ancestors.getLast? = some a.id →
      a.ancestors.length < p.ancestors.length)
    (hrun : determine_page_paths (build_hierarchy pages) output_dir fuel = some m) :
    GoodPaths pages output_dir m := by
  unfold determine_page_paths at hrun
  have hroots_nodup : ((visited_pages (build_hierarchy pages).children_map fuel
      (build_hierarchy pages).roots).map Page.id).Nodup := by
    refine visited_nodup pages hnd hwf fuel (build_hierarchy pages).roots
      (fun r hr => (roots_mem pages hr).1) ?_ ?_
    · rw [build_hierarchy_roots]
      exact (List.Nodup.of_map _ hnd).filter _
    · intro r1 h1 r2 h2 x hr1 hr2
      exact sep_roots pages hnd hwf h1 h2 hr1 hr2
  obtain ⟨hInv, -, -⟩ := process_pages_master pages output_dir hnd fuel
    (build_hierarchy pages).roots output_dir (fun _ => none) m hrun
    (fun r hr => (roots_mem pages hr).1)
    (by
      intro r hr
      refine ⟨fun _ => rfl, ?_⟩
      intro a ha hain
      exfalso
      have hroot := (roots_mem pages hr).2
      unfold isRootPage at hroot
      rw [ha] at hroot
      exact (of_decide_eq_true hroot) hain)
    (fun k _ => rfl)
    hroots_nodup
    (by intro p _ q hq; exact Option.noConfusion hq)
  exact hInv

/-- Witness for C2 on the concrete two-page space Root -> Child, fuel 3. -/
theorem determine_page_paths_invariant_witness :
    GoodPaths [⟨"1", "Root", [], [], ""⟩, ⟨"2", "Child", ["1"], [], ""⟩] ["out"]
      ((determine_page_paths
        (build_hierarchy [⟨"1", "Root", [], [], ""⟩, ⟨"2", "Child", ["1"], [], ""⟩])
        ["out"] 3).getD (fun _ => none)) :=
  determine_page_paths_invariant
    [⟨"1", "Root", [], [], ""⟩, ⟨"2", "Child", ["1"], [], ""⟩] ["out"] 3 _
    (by decide) (by decide) rfl
